import Mathlib

/-!
Verification development for the dynamiqs time-dependent-operator abstraction
and solver entry points.

Times are modelled by `ℚ` and matrix entries by an abstract commutative
(star) ring `α`; matrices of shape `(n, n)` are `Matrix (Fin n) (Fin n) α`.
The batching axes of the source are not needed by the properties below, so a
factor value is a single scalar and the operator shape is a fixed `(n, n)`.
-/

set_option maxHeartbeats 1000000

/-- `torch.searchsorted(l, t, side='right')` on a sorted 1-d tensor `l` is the
number of entries `≤ t`.  `countLE` computes that count for an arbitrary list;
all searchsorted reasoning below goes through it. -/
def countLE (l : List ℚ) (t : ℚ) : ℕ :=
  match l with
  | [] => 0
  | x :: xs => (if x ≤ t then 1 else 0) + countLE xs t

theorem countLE_nil (t : ℚ) : countLE [] t = 0 := rfl

theorem countLE_cons (x : ℚ) (xs : List ℚ) (t : ℚ) :
    countLE (x :: xs) t = (if x ≤ t then 1 else 0) + countLE xs t := rfl

theorem countLE_le_length (l : List ℚ) (t : ℚ) : countLE l t ≤ l.length := by
  induction l with
  | nil => simp [countLE]
  | cons x xs ih =>
    simp only [countLE, List.length_cons]
    split <;> omega

theorem countLE_eq_zero_iff (l : List ℚ) (t : ℚ) :
    countLE l t = 0 ↔ ∀ s ∈ l, ¬ s ≤ t := by
  induction l with
  | nil => simp [countLE]
  | cons x xs ih =>
    simp only [countLE, List.mem_cons]
    constructor
    · intro h s hs
      rcases hs with rfl | hs
      · intro hle
        simp [hle] at h
      · have hxs : countLE xs t = 0 := by split at h <;> omega
        exact (ih.mp hxs) s hs
    · intro h
      have hx : ¬ x ≤ t := h x (Or.inl rfl)
      have hxs : countLE xs t = 0 := ih.mpr (fun s hs => h s (Or.inr hs))
      simp [hx, hxs]

theorem countLE_eq_length_iff (l : List ℚ) (t : ℚ) :
    countLE l t = l.length ↔ ∀ s ∈ l, s ≤ t := by
  induction l with
  | nil => simp [countLE]
  | cons x xs ih =>
    have hle := countLE_le_length xs t
    simp only [countLE, List.length_cons, List.mem_cons]
    constructor
    · intro h
      have hx : x ≤ t := by by_contra hx; simp [hx] at h; omega
      have hxs : countLE xs t = xs.length := by simp [hx] at h; omega
      intro s hs
      rcases hs with rfl | hs
      · exact hx
      · exact (ih.mp hxs) s hs
    · intro h
      have hx : x ≤ t := h x (Or.inl rfl)
      have hxs : countLE xs t = xs.length := ih.mpr (fun s hs => h s (Or.inr hs))
      simp [hx, hxs]
      omega

theorem headI_mem_of_ne_nil {l : List ℚ} (hne : l ≠ []) : l.headI ∈ l := by
  cases l with
  | nil => exact absurd rfl hne
  | cons x xs => simp

theorem getLastD_mem_of_ne_nil {l : List ℚ} (hne : l ≠ []) : l.getLastD 0 ∈ l := by
  induction l with
  | nil => exact absurd rfl hne
  | cons x xs ih =>
    cases xs with
    | nil => simp
    | cons y ys =>
      rw [List.getLastD_cons]
      exact List.mem_cons_of_mem x (ih (by simp))

/-- On a `≤`-sorted list, the entries `≤ t` are exactly the first
`countLE l t` ones. -/
theorem lt_countLE_iff (l : List ℚ) (hs : l.Sorted (· ≤ ·)) (t : ℚ)
    (i : ℕ) (hi : i < l.length) :
    i < countLE l t ↔ l.get ⟨i, hi⟩ ≤ t := by
  induction l generalizing i with
  | nil => simp at hi
  | cons x xs ih =>
    rw [List.sorted_cons] at hs
    obtain ⟨hx, hxs⟩ := hs
    by_cases hxt : x ≤ t
    · cases i with
      | zero =>
        simp only [List.get, countLE, hxt, if_true, iff_true]
        omega
      | succ j =>
        have hj : j < xs.length := by simpa using hi
        simp only [List.get, countLE, hxt, if_true]
        rw [show (1 + countLE xs t) = countLE xs t + 1 by omega]
        constructor
        · intro h
          exact (ih hxs j hj).mp (by omega)
        · intro h
          have := (ih hxs j hj).mpr h
          omega
    · have hzero : countLE xs t = 0 := by
        rw [countLE_eq_zero_iff]
        intro s hsmem hst
        exact hxt (le_trans (hx s hsmem) hst)
      cases i with
      | zero =>
        simp [countLE, hxt, hzero]
      | succ j =>
        have hj : j < xs.length := by simpa using hi
        have hmem : xs.get ⟨j, hj⟩ ∈ xs := xs.get_mem j hj
        simp only [List.get, countLE, hxt, if_false, hzero]
        constructor
        · omega
        · intro h
          exact absurd (le_trans (hx _ hmem) h) hxt

/-- Mirrors `_PWCFactor` (src/dynamiqs/time_tensor.py:378-406): a sorted
breakpoint list `times` of length `nv + 1` and `nv` per-interval values. -/
structure PWCFactor (α : Type) where
  times : List ℚ
  values : List α

namespace PWCFactor

variable {α : Type} [CommRing α]

/-- `_PWCFactor.conj`: conjugate every per-interval value. -/
def conj [StarRing α] (f : PWCFactor α) : PWCFactor α :=
  ⟨f.times, f.values.map star⟩

/-- `_PWCFactor.__call__` (src/dynamiqs/time_tensor.py:397-403): zero outside
`[times[0], times[-1])`, otherwise the value of the interval containing `t`
found by binary search (`searchsorted(..., side='right') - 1`). -/
def call (f : PWCFactor α) (t : ℚ) : α :=
  if t < f.times.headI ∨ f.times.getLastD 0 ≤ t then 0
  else f.values.getD (countLE f.times t - 1) 0

theorem conj_times [StarRing α] (f : PWCFactor α) : (f.conj).times = f.times := rfl

/-- A factor as constructed by `_factory_pwc` / `check_time_tensor`:
nonempty, strictly increasing breakpoints. -/
def Wf (f : PWCFactor α) : Prop :=
  f.times ≠ [] ∧ f.times.Sorted (· < ·)

end PWCFactor

theorem headI_le_of_sorted {l : List ℚ} (hs : l.Sorted (· ≤ ·)) (hne : l ≠ [])
    {s : ℚ} (hmem : s ∈ l) : l.headI ≤ s := by
  cases l with
  | nil => exact absurd rfl hne
  | cons x xs =>
    rw [List.sorted_cons] at hs
    rcases List.mem_cons.mp hmem with rfl | h
    · simp
    · simpa using hs.1 s h

theorem le_getLastD_of_sorted {l : List ℚ} (hs : l.Sorted (· ≤ ·)) (hne : l ≠ [])
    {s : ℚ} (hmem : s ∈ l) : s ≤ l.getLastD 0 := by
  induction l with
  | nil => exact absurd rfl hne
  | cons x xs ih =>
    rw [List.sorted_cons] at hs
    cases xs with
    | nil =>
      simp at hmem
      simp [hmem]
    | cons y ys =>
      rw [List.getLastD_cons]
      rcases List.mem_cons.mp hmem with rfl | h
      · exact hs.1 _ (getLastD_mem_of_ne_nil (by simp))
      · exact ih hs.2 (by simp) h

theorem countLE_eq_zero_iff_lt_headI {l : List ℚ} (hs : l.Sorted (· ≤ ·))
    (hne : l ≠ []) (t : ℚ) : countLE l t = 0 ↔ t < l.headI := by
  rw [countLE_eq_zero_iff]
  constructor
  · intro h
    have : ¬ l.headI ≤ t := h _ (headI_mem_of_ne_nil hne)
    linarith [lt_of_not_le this]
  · intro h s hmem hle
    exact absurd (lt_of_le_of_lt (le_trans (headI_le_of_sorted hs hne hmem) hle) h)
      (lt_irrefl _)

theorem countLE_eq_length_iff_getLastD_le {l : List ℚ} (hs : l.Sorted (· ≤ ·))
    (hne : l ≠ []) (t : ℚ) : countLE l t = l.length ↔ l.getLastD 0 ≤ t := by
  rw [countLE_eq_length_iff]
  constructor
  · intro h
    exact h _ (getLastD_mem_of_ne_nil hne)
  · intro h s hmem
    exact le_trans (le_getLastD_of_sorted hs hne hmem) h

/-- Two times with equal searchsorted counts on a factor's breakpoints are in
the same interval, so the factor evaluates equally on them. -/
theorem PWCFactor.call_congr {α : Type} [CommRing α] (f : PWCFactor α)
    (hwf : f.Wf) {t₁ t₂ : ℚ}
    (h : countLE f.times t₁ = countLE f.times t₂) : f.call t₁ = f.call t₂ := by
  obtain ⟨hne, hsortlt⟩ := hwf
  have hsort : f.times.Sorted (· ≤ ·) := hsortlt.imp le_of_lt
  have h₁ : (t₁ < f.times.headI ∨ f.times.getLastD 0 ≤ t₁) ↔
      (t₂ < f.times.headI ∨ f.times.getLastD 0 ≤ t₂) := by
    rw [← countLE_eq_zero_iff_lt_headI hsort hne,
        ← countLE_eq_length_iff_getLastD_le hsort hne,
        ← countLE_eq_zero_iff_lt_headI hsort hne,
        ← countLE_eq_length_iff_getLastD_le hsort hne, h]
  unfold PWCFactor.call
  by_cases hg : t₂ < f.times.headI ∨ f.times.getLastD 0 ≤ t₂
  · rw [if_pos (h₁.mpr hg), if_pos hg]
  · rw [if_neg (fun hx => hg (h₁.mp hx)), if_neg hg, h]

theorem getD_eq_get {β : Type} (l : List β) (d : β) (i : ℕ) (h : i < l.length) :
    l.getD i d = l.get ⟨i, h⟩ := by
  induction l generalizing i with
  | nil => simp at h
  | cons x xs ih =>
    cases i with
    | zero => rfl
    | succ j => exact ih j (by simpa using h)

theorem countLE_congr {l : List ℚ} {t₁ t₂ : ℚ}
    (h : ∀ s ∈ l, (s ≤ t₁ ↔ s ≤ t₂)) : countLE l t₁ = countLE l t₂ := by
  induction l with
  | nil => rfl
  | cons x xs ih =>
    have hx := h x (List.mem_cons_self x xs)
    rw [countLE_cons, countLE_cons, ih (fun s hs => h s (List.mem_cons_of_mem _ hs))]
    by_cases h1 : x ≤ t₁
    · rw [if_pos h1, if_pos (hx.mp h1)]
    · rw [if_neg h1, if_neg (fun h2 => h1 (hx.mpr h2))]

/-- Mirrors `PWCTimeTensor` (src/dynamiqs/time_tensor.py:409-484).  The source
keeps `factors` (a python list) and `tensors` (a stacked `(nf, n, n)` tensor)
aligned positionally; here each factor is paired with its base matrix. -/
structure PWCTimeTensor (n : ℕ) (α : Type) where
  factors : List (PWCFactor α × Matrix (Fin n) (Fin n) α)
  static : Matrix (Fin n) (Fin n) α

namespace PWCTimeTensor

variable {n : ℕ} {α : Type} [CommRing α]

/-- The concatenation of every factor's breakpoints (`[x.times for x in self.factors]`). -/
def allTimes (A : PWCTimeTensor n α) : List ℚ :=
  A.factors.foldr (fun p acc => p.1.times ++ acc) []

/-- `self.times = torch.cat([x.times for x in self.factors]).unique(sorted=True)`
(src/dynamiqs/time_tensor.py:422): the sorted deduplicated merge of all
factor breakpoints. -/
def times (A : PWCTimeTensor n α) : List ℚ :=
  A.allTimes.toFinset.sort (· ≤ ·)

/-- `PWCTimeTensor._call` (src/dynamiqs/time_tensor.py:436-447): static
residual outside the merged range, otherwise the factor/base products summed,
with every factor evaluated at the interval's left endpoint `self.times[idx]`,
plus the static residual. -/
def callIdx (A : PWCTimeTensor n α) (idx : ℤ) : Matrix (Fin n) (Fin n) α :=
  if idx < 0 ∨ (A.times.length : ℤ) - 1 ≤ idx then A.static
  else (A.factors.map (fun p => p.1.call (A.times.getD idx.toNat 0) • p.2)).sum + A.static

/-- `PWCTimeTensor.__call__` (src/dynamiqs/time_tensor.py:449-453):
`idx = searchsorted(times, t, side='right') - 1`. -/
def call (A : PWCTimeTensor n α) (t : ℚ) : Matrix (Fin n) (Fin n) α :=
  A.callIdx ((countLE A.times t : ℤ) - 1)

/-- `PWCTimeTensor.__add__` with a `PWCTimeTensor` operand
(src/dynamiqs/time_tensor.py:478-482): concatenate factor/base pairs and add
the static residuals. -/
def add (A B : PWCTimeTensor n α) : PWCTimeTensor n α :=
  ⟨A.factors ++ B.factors, A.static + B.static⟩

/-- `PWCTimeTensor.adjoint` (src/dynamiqs/time_tensor.py:460-462): conjugate
the factors, conjugate-transpose the base matrices and the static residual. -/
def adjoint [StarRing α] (A : PWCTimeTensor n α) : PWCTimeTensor n α :=
  ⟨A.factors.map (fun p => (p.1.conj, p.2.conjTranspose)), A.static.conjTranspose⟩

/-- All factors have nonempty, strictly increasing breakpoints (as enforced by
`check_time_tensor` in `_factory_pwc`). -/
def Wf (A : PWCTimeTensor n α) : Prop := ∀ p ∈ A.factors, p.1.Wf

theorem mem_foldr_times (s : ℚ) (fs : List (PWCFactor α × Matrix (Fin n) (Fin n) α)) :
    s ∈ fs.foldr (fun p acc => p.1.times ++ acc) [] ↔ ∃ p ∈ fs, s ∈ p.1.times := by
  induction fs with
  | nil => simp
  | cons q qs ih => simp [List.mem_append, ih]

theorem mem_times (A : PWCTimeTensor n α) (s : ℚ) :
    s ∈ A.times ↔ ∃ p ∈ A.factors, s ∈ p.1.times := by
  rw [times, Finset.mem_sort, List.mem_toFinset, allTimes]
  exact mem_foldr_times s A.factors

theorem times_sorted (A : PWCTimeTensor n α) : A.times.Sorted (· ≤ ·) :=
  Finset.sort_sorted _ _

theorem times_sorted_lt (A : PWCTimeTensor n α) : A.times.Sorted (· < ·) :=
  Finset.sort_sorted_lt _

/-- Normal form of PWC evaluation: at every time `t` (inside or outside the
covered range) the evaluation equals the sum of each factor's value at `t`
times its base matrix, plus the static residual.  Outside the covered range
every factor value is `0`, recovering the static residual. -/
theorem call_eq_sum (A : PWCTimeTensor n α) (hwf : A.Wf) (t : ℚ) :
    A.call t = (A.factors.map (fun p => p.1.call t • p.2)).sum + A.static := by
  have hsort : A.times.Sorted (· ≤ ·) := A.times_sorted
  have hsortlt : A.times.Sorted (· < ·) := A.times_sorted_lt
  have hcle : countLE A.times t ≤ A.times.length := countLE_le_length _ _
  by_cases h0 : countLE A.times t = 0
  · have hzero : ∀ p ∈ A.factors, p.1.call t = (0 : α) := by
      intro p hp
      have hne : p.1.times ≠ [] := (hwf p hp).1
      have hlt : t < p.1.times.headI := by
        have hmem : p.1.times.headI ∈ A.times :=
          (A.mem_times _).mpr ⟨p, hp, headI_mem_of_ne_nil hne⟩
        have hnle := (countLE_eq_zero_iff A.times t).mp h0 _ hmem
        linarith [lt_of_not_le hnle]
      simp [PWCFactor.call, hlt]
    have hsum : (A.factors.map (fun p => p.1.call t • p.2)).sum = 0 := by
      apply List.sum_eq_zero
      intro x hx
      rcases List.mem_map.mp hx with ⟨p, hp, rfl⟩
      rw [hzero p hp, zero_smul]
    simp only [call, callIdx]
    rw [h0, hsum, zero_add, if_pos (Or.inl (by norm_num))]
  · by_cases hfull : countLE A.times t = A.times.length
    · have hzero : ∀ p ∈ A.factors, p.1.call t = (0 : α) := by
        intro p hp
        have hne : p.1.times ≠ [] := (hwf p hp).1
        have hle : p.1.times.getLastD 0 ≤ t := by
          have hmem : p.1.times.getLastD 0 ∈ A.times :=
            (A.mem_times _).mpr ⟨p, hp, getLastD_mem_of_ne_nil hne⟩
          exact (countLE_eq_length_iff A.times t).mp hfull _ hmem
        unfold PWCFactor.call
        rw [if_pos (Or.inr hle)]
      have hsum : (A.factors.map (fun p => p.1.call t • p.2)).sum = 0 := by
        apply List.sum_eq_zero
        intro x hx
        rcases List.mem_map.mp hx with ⟨p, hp, rfl⟩
        rw [hzero p hp, zero_smul]
      simp only [call, callIdx]
      rw [hfull, hsum, zero_add, if_pos (Or.inr (by omega))]
    · have hcpos : 0 < countLE A.times t := Nat.pos_of_ne_zero h0
      have hclt : countLE A.times t < A.times.length := lt_of_le_of_ne hcle hfull
      have hidx : countLE A.times t - 1 < A.times.length := by omega
      have htk_le : A.times.get ⟨countLE A.times t - 1, hidx⟩ ≤ t :=
        (lt_countLE_iff A.times hsort t _ hidx).mp (by omega)
      have hmax : ∀ s ∈ A.times, s ≤ t →
          s ≤ A.times.get ⟨countLE A.times t - 1, hidx⟩ := by
        intro s hs hst
        rcases List.mem_iff_get.mp hs with ⟨i, rfl⟩
        have hi : (i : ℕ) < countLE A.times t :=
          (lt_countLE_iff A.times hsort t i i.isLt).mpr hst
        rcases Nat.lt_or_ge (i : ℕ) (countLE A.times t - 1) with hik | hik
        · exact le_of_lt (hsortlt.rel_get_of_lt (Fin.mk_lt_mk.mpr hik))
        · have hieq : i = (⟨countLE A.times t - 1, hidx⟩ : Fin A.times.length) := by
            apply Fin.ext
            show (i : ℕ) = countLE A.times t - 1
            omega
          rw [hieq]
      have hfac : ∀ p ∈ A.factors,
          p.1.call (A.times.get ⟨countLE A.times t - 1, hidx⟩) = p.1.call t := by
        intro p hp
        apply PWCFactor.call_congr p.1 (hwf p hp)
        apply countLE_congr
        intro s hs
        constructor
        · exact fun h => le_trans h htk_le
        · exact fun h => hmax s ((A.mem_times _).mpr ⟨p, hp, hs⟩) h
      have htoNat : ((countLE A.times t : ℤ) - 1).toNat = countLE A.times t - 1 := by
        omega
      have hng : ¬((countLE A.times t : ℤ) - 1 < 0 ∨
          (A.times.length : ℤ) - 1 ≤ (countLE A.times t : ℤ) - 1) := by
        push_neg
        omega
      simp only [call, callIdx]
      rw [if_neg hng, htoNat, getD_eq_get _ _ _ hidx]
      congr 1
      apply congrArg List.sum
      apply List.map_congr_left
      intro p hp
      rw [hfac p hp]

end PWCTimeTensor

theorem headI_eq_get {l : List ℚ} (hne : l ≠ []) (h0 : 0 < l.length) :
    l.headI = l.get ⟨0, h0⟩ := by
  cases l with
  | nil => exact absurd rfl hne
  | cons x xs => rfl

theorem getLastD_eq_get_of_default (l : List ℚ) (d : ℚ) (hne : l ≠ [])
    (h : l.length - 1 < l.length) : l.getLastD d = l.get ⟨l.length - 1, h⟩ := by
  induction l generalizing d with
  | nil => exact absurd rfl hne
  | cons x xs ih =>
    cases xs with
    | nil => rfl
    | cons y ys =>
      rw [List.getLastD_cons]
      have h' : (y :: ys).length - 1 < (y :: ys).length := by simp
      rw [ih x (by simp) h']
      rfl

theorem getLastD_eq_get (l : List ℚ) (hne : l ≠ []) (h : l.length - 1 < l.length) :
    l.getLastD 0 = l.get ⟨l.length - 1, h⟩ :=
  getLastD_eq_get_of_default l 0 hne h

/-- Inside the interval `[times[k], times[k+1])` a PWC factor evaluates to
`values[k]`. -/
theorem PWCFactor.call_of_mem_interval {α : Type} [CommRing α] (f : PWCFactor α)
    (hsortlt : f.times.Sorted (· < ·)) (k : ℕ) (hk : k + 1 < f.times.length)
    {t : ℚ} (h1 : f.times.getD k 0 ≤ t) (h2 : t < f.times.getD (k + 1) 0) :
    f.call t = f.values.getD k 0 := by
  have hne : f.times ≠ [] := by
    intro h
    rw [h] at hk
    simp at hk
  have hsort : f.times.Sorted (· ≤ ·) := hsortlt.imp le_of_lt
  have hklt : k < f.times.length := by omega
  rw [getD_eq_get _ _ _ hklt] at h1
  rw [getD_eq_get _ _ _ hk] at h2
  have hc1 : k < countLE f.times t := (lt_countLE_iff _ hsort t k hklt).mpr h1
  have hc2 : ¬ (k + 1 < countLE f.times t) := by
    intro hcon
    exact absurd ((lt_countLE_iff _ hsort t (k + 1) hk).mp hcon) (not_le.mpr h2)
  have hcnt : countLE f.times t = k + 1 := by omega
  have hg1 : ¬ t < f.times.headI := by
    have h0 : 0 < f.times.length := by omega
    rw [headI_eq_get hne h0]
    have hmono : f.times.get ⟨0, h0⟩ ≤ f.times.get ⟨k, hklt⟩ :=
      hsort.rel_get_of_le (Fin.mk_le_mk.mpr (Nat.zero_le k))
    push_neg
    exact le_trans hmono h1
  have hg2 : ¬ f.times.getLastD 0 ≤ t := by
    have hlast : f.times.length - 1 < f.times.length := by omega
    rw [getLastD_eq_get f.times hne hlast]
    have hmono : f.times.get ⟨k + 1, hk⟩ ≤ f.times.get ⟨f.times.length - 1, hlast⟩ :=
      hsort.rel_get_of_le (Fin.mk_le_mk.mpr (by omega))
    push_neg
    exact lt_of_lt_of_le h2 hmono
  unfold PWCFactor.call
  rw [if_neg (not_or.mpr ⟨hg1, hg2⟩), hcnt]
  norm_num

/-- `_factory_pwc` (src/dynamiqs/time_tensor.py:95-132) builds a PWC operator
with a single factor; the factory's static residual is the zero matrix, and
adding a constant tensor later replaces it (`__add__`, line 472-475), so the
residual is kept general here. -/
def pwcOf {n : ℕ} {α : Type} [CommRing α] (f : PWCFactor α)
    (base : Matrix (Fin n) (Fin n) α) (static : Matrix (Fin n) (Fin n) α) :
    PWCTimeTensor n α :=
  ⟨[(f, base)], static⟩

theorem pwcOf_call {n : ℕ} {α : Type} [CommRing α] (f : PWCFactor α)
    (base static : Matrix (Fin n) (Fin n) α) (hne : f.times ≠ [])
    (hsort : f.times.Sorted (· < ·)) (t : ℚ) :
    (pwcOf f base static).call t = f.call t • base + static := by
  have hwf : (pwcOf f base static).Wf := by
    intro p hp
    simp only [pwcOf, List.mem_singleton] at hp
    rw [hp]
    exact ⟨hne, hsort⟩
  rw [PWCTimeTensor.call_eq_sum _ hwf]
  simp [pwcOf]

/-- **C1.** For a PWC operator built from strictly increasing breakpoints
`times` (length `m+1`), per-interval values and a base matrix: evaluation at
`t` with `times[k] ≤ t < times[k+1]` equals `values[k]` times the base matrix
plus the static residual, and evaluation at `t < times[0]` or `t ≥ times[m]`
equals the static residual alone (no per-interval value contributes). -/
theorem claim1_pwc_eval {n : ℕ} {α : Type} [CommRing α] (f : PWCFactor α)
    (base static : Matrix (Fin n) (Fin n) α)
    (hne : f.times ≠ []) (hsort : f.times.Sorted (· < ·))
    (hlen : f.values.length + 1 = f.times.length) :
    (∀ k : ℕ, k + 1 < f.times.length → ∀ t : ℚ,
        f.times.getD k 0 ≤ t → t < f.times.getD (k + 1) 0 →
        (pwcOf f base static).call t = f.values.getD k 0 • base + static)
      ∧ (∀ t : ℚ, t < f.times.headI → (pwcOf f base static).call t = static)
      ∧ (∀ t : ℚ, f.times.getLastD 0 ≤ t → (pwcOf f base static).call t = static) := by
  refine ⟨?_, ?_, ?_⟩
  · intro k hk t h1 h2
    rw [pwcOf_call f base static hne hsort t,
        PWCFactor.call_of_mem_interval f hsort k hk h1 h2]
  · intro t ht
    rw [pwcOf_call f base static hne hsort t]
    unfold PWCFactor.call
    rw [if_pos (Or.inl ht), zero_smul, zero_add]
  · intro t ht
    rw [pwcOf_call f base static hne hsort t]
    unfold PWCFactor.call
    rw [if_pos (Or.inr ht), zero_smul, zero_add]

def egFactorA : PWCFactor ℤ := ⟨[0, 1, 2], [5, 7]⟩

def egBase : Matrix (Fin 1) (Fin 1) ℤ := Matrix.of ![![2]]

def egStatic : Matrix (Fin 1) (Fin 1) ℤ := Matrix.of ![![3]]

theorem claim1_pwc_eval_witness :
    (egFactorA.times ≠ [] ∧ egFactorA.times.Sorted (· < ·)
        ∧ egFactorA.values.length + 1 = egFactorA.times.length)
      ∧ (pwcOf egFactorA egBase egStatic).call (1 / 2)
          = egFactorA.values.getD 0 0 • egBase + egStatic
      ∧ (pwcOf egFactorA egBase egStatic).call 7 = egStatic := by
  have h := claim1_pwc_eval egFactorA egBase egStatic (by decide) (by decide) (by decide)
  exact ⟨⟨by decide, by decide, by decide⟩,
    h.1 0 (by decide) (1 / 2) (show (0 : ℚ) ≤ 1 / 2 by norm_num)
      (show (1 : ℚ) / 2 < 1 by norm_num),
    h.2.2 7 (show (2 : ℚ) ≤ 7 by norm_num)⟩

theorem foldr_times_append {n : ℕ} {α : Type}
    (fs gs : List (PWCFactor α × Matrix (Fin n) (Fin n) α)) :
    (fs ++ gs).foldr (fun p acc => p.1.times ++ acc) [] =
      fs.foldr (fun p acc => p.1.times ++ acc) []
        ++ gs.foldr (fun p acc => p.1.times ++ acc) [] := by
  induction fs with
  | nil => simp
  | cons q qs ih => simp [ih]

/-- **C2.** Adding two PWC operators concatenates their factor lists and sums
their static residuals; the merged breakpoint list is the sorted,
deduplicated union of the two operands' breakpoint lists, and evaluation is
exactly pointwise addition at every time `t` — inside either operand's
covered range or outside both. -/
theorem claim2_pwc_add {n : ℕ} {α : Type} [CommRing α]
    (a b : PWCTimeTensor n α) (ha : a.Wf) (hb : b.Wf) :
    (a.add b).times = (a.times.toFinset ∪ b.times.toFinset).sort (· ≤ ·)
      ∧ ∀ t : ℚ, (a.add b).call t = a.call t + b.call t := by
  constructor
  · have h1 : (a.add b).allTimes = a.allTimes ++ b.allTimes :=
      foldr_times_append a.factors b.factors
    rw [PWCTimeTensor.times, h1, List.toFinset_append]
    have h2 : a.allTimes.toFinset = a.times.toFinset := by
      rw [PWCTimeTensor.times, Finset.sort_toFinset]
    have h3 : b.allTimes.toFinset = b.times.toFinset := by
      rw [PWCTimeTensor.times, Finset.sort_toFinset]
    rw [h2, h3]
  · intro t
    have hab : (a.add b).Wf := by
      intro p hp
      rcases List.mem_append.mp hp with h | h
      · exact ha p h
      · exact hb p h
    rw [PWCTimeTensor.call_eq_sum _ hab, PWCTimeTensor.call_eq_sum _ ha,
        PWCTimeTensor.call_eq_sum _ hb]
    show ((a.factors ++ b.factors).map _).sum + (a.static + b.static) = _
    rw [List.map_append, List.sum_append]
    abel

def egA : PWCTimeTensor 1 ℤ :=
  ⟨[(⟨[0, 2], [3]⟩, Matrix.of ![![1]])], Matrix.of ![![10]]⟩

def egB : PWCTimeTensor 1 ℤ :=
  ⟨[(⟨[1, 3], [4]⟩, Matrix.of ![![1]])], Matrix.of ![![20]]⟩

theorem claim2_pwc_add_witness :
    egA.Wf ∧ egB.Wf
      ∧ (egA.add egB).times = (egA.times.toFinset ∪ egB.times.toFinset).sort (· ≤ ·)
      ∧ (egA.add egB).call (3 / 2) = egA.call (3 / 2) + egB.call (3 / 2) := by
  have hwa : egA.Wf := by
    intro p hp
    simp only [egA, List.mem_singleton] at hp
    rw [hp]
    exact ⟨by decide, by decide⟩
  have hwb : egB.Wf := by
    intro p hp
    simp only [egB, List.mem_singleton] at hp
    rw [hp]
    exact ⟨by decide, by decide⟩
  exact ⟨hwa, hwb, (claim2_pwc_add egA egB hwa hwb).1,
    (claim2_pwc_add egA egB hwa hwb).2 (3 / 2)⟩

/-- Mirrors `ConstantTimeTensor` (src/dynamiqs/time_tensor.py:279-316). -/
structure ConstantTimeTensor (n : ℕ) (α : Type) where
  tensor : Matrix (Fin n) (Fin n) α

/-- `ConstantTimeTensor.__call__`: evaluation ignores `t`. -/
def ConstantTimeTensor.call {n : ℕ} {α : Type} (A : ConstantTimeTensor n α)
    (_t : ℚ) : Matrix (Fin n) (Fin n) α := A.tensor

/-- `ConstantTimeTensor.adjoint` (src/dynamiqs/time_tensor.py:301-302). -/
def ConstantTimeTensor.adjoint {n : ℕ} {α : Type} [CommRing α] [StarRing α]
    (A : ConstantTimeTensor n α) : ConstantTimeTensor n α :=
  ⟨A.tensor.conjTranspose⟩

/-- Mirrors `CallableTimeTensor` (src/dynamiqs/time_tensor.py:319-375): wraps a
function `t -> matrix`.  The stored `f0 = f(0.0)` only carries the target
shape for `.view`; the shape is fixed to `(n, n)` in this embedding, so
evaluation is `f t`. -/
structure CallableTimeTensor (n : ℕ) (α : Type) where
  f : ℚ → Matrix (Fin n) (Fin n) α

/-- `CallableTimeTensor.__call__` (src/dynamiqs/time_tensor.py:337-340). -/
def CallableTimeTensor.call {n : ℕ} {α : Type} (A : CallableTimeTensor n α)
    (t : ℚ) : Matrix (Fin n) (Fin n) α := A.f t

/-- `CallableTimeTensor.adjoint` (src/dynamiqs/time_tensor.py:347-351):
`f = lambda t: self.f(t).adjoint()`. -/
def CallableTimeTensor.adjoint {n : ℕ} {α : Type} [CommRing α] [StarRing α]
    (A : CallableTimeTensor n α) : CallableTimeTensor n α :=
  ⟨fun t => (A.f t).conjTranspose⟩

/-- Mirrors `_ModulatedFactor` (src/dynamiqs/time_tensor.py:487-512): a scalar
function of time (its stored `f0` only carries shape information, fixed
here). -/
structure ModulatedFactor (α : Type) where
  f : ℚ → α

/-- `_ModulatedFactor.__call__`. -/
def ModulatedFactor.call {α : Type} (g : ModulatedFactor α) (t : ℚ) : α := g.f t

/-- `_ModulatedFactor.conj`. -/
def ModulatedFactor.conj {α : Type} [CommRing α] [StarRing α]
    (g : ModulatedFactor α) : ModulatedFactor α :=
  ⟨fun t => star (g.f t)⟩

/-- Mirrors `ModulatedTimeTensor` (src/dynamiqs/time_tensor.py:515-576): a sum
of matrices with callable scalar factors plus a static residual; as for
`PWCTimeTensor`, the positionally aligned `factors` list and `(nf, n, n)`
`tensors` stack are represented as a list of pairs. -/
structure ModulatedTimeTensor (n : ℕ) (α : Type) where
  factors : List (ModulatedFactor α × Matrix (Fin n) (Fin n) α)
  static : Matrix (Fin n) (Fin n) α

/-- `ModulatedTimeTensor.__call__` (src/dynamiqs/time_tensor.py:542-545). -/
def ModulatedTimeTensor.call {n : ℕ} {α : Type} [CommRing α]
    (A : ModulatedTimeTensor n α) (t : ℚ) : Matrix (Fin n) (Fin n) α :=
  (A.factors.map (fun p => p.1.call t • p.2)).sum + A.static

/-- `ModulatedTimeTensor.adjoint` (src/dynamiqs/time_tensor.py:552-554). -/
def ModulatedTimeTensor.adjoint {n : ℕ} {α : Type} [CommRing α] [StarRing α]
    (A : ModulatedTimeTensor n α) : ModulatedTimeTensor n α :=
  ⟨A.factors.map (fun p => (p.1.conj, p.2.conjTranspose)), A.static.conjTranspose⟩

theorem list_sum_conjTranspose {n : ℕ} {α : Type} [CommRing α] [StarRing α]
    (l : List (Matrix (Fin n) (Fin n) α)) :
    (l.map Matrix.conjTranspose).sum = l.sum.conjTranspose := by
  induction l with
  | nil => simp
  | cons x xs ih => simp [Matrix.conjTranspose_add, ih]

theorem getD_map_star {α : Type} [CommRing α] [StarRing α] (l : List α) (i : ℕ) :
    (l.map star).getD i 0 = star (l.getD i 0) := by
  induction l generalizing i with
  | nil => simp
  | cons x xs ih =>
    cases i with
    | zero => rfl
    | succ j => simpa using ih j

theorem PWCFactor.conj_call_star {α : Type} [CommRing α] [StarRing α] (f : PWCFactor α)
    (t : ℚ) : f.conj.call t = star (f.call t) := by
  unfold PWCFactor.call
  rw [PWCFactor.conj_times]
  by_cases hg : t < f.times.headI ∨ f.times.getLastD 0 ≤ t
  · rw [if_pos hg, if_pos hg, star_zero]
  · rw [if_neg hg, if_neg hg]
    exact getD_map_star f.values _

theorem foldr_times_map_conj {n : ℕ} {α : Type} [CommRing α] [StarRing α]
    (fs : List (PWCFactor α × Matrix (Fin n) (Fin n) α)) :
    (fs.map (fun p => (p.1.conj, p.2.conjTranspose))).foldr
        (fun p acc => p.1.times ++ acc) []
      = fs.foldr (fun p acc => p.1.times ++ acc) [] := by
  induction fs with
  | nil => rfl
  | cons q qs ih => simp only [List.map_cons, List.foldr_cons, ih, PWCFactor.conj_times]

theorem PWCTimeTensor.adjoint_times {n : ℕ} {α : Type} [CommRing α] [StarRing α]
    (A : PWCTimeTensor n α) : A.adjoint.times = A.times := by
  have h : A.adjoint.allTimes = A.allTimes := foldr_times_map_conj A.factors
  rw [PWCTimeTensor.times, PWCTimeTensor.times, h]

theorem ModulatedFactor.conj_call_star_mod {α : Type} [CommRing α] [StarRing α]
    (g : ModulatedFactor α) (t : ℚ) : g.conj.call t = star (g.call t) := rfl

theorem sum_call_conj {n : ℕ} {α : Type} [CommRing α] [StarRing α]
    (fs : List (PWCFactor α × Matrix (Fin n) (Fin n) α)) (s : ℚ) :
    ((fs.map (fun p => (p.1.conj, p.2.conjTranspose))).map
        (fun p : PWCFactor α × Matrix (Fin n) (Fin n) α => p.1.call s • p.2)).sum
      = ((fs.map (fun p : PWCFactor α × Matrix (Fin n) (Fin n) α =>
          p.1.call s • p.2)).sum).conjTranspose := by
  induction fs with
  | nil => simp
  | cons q qs ih =>
    simp only [List.map_cons, List.sum_cons, Matrix.conjTranspose_add, ih,
      PWCFactor.conj_call_star, Matrix.conjTranspose_smul]

theorem sum_mcall_conj {n : ℕ} {α : Type} [CommRing α] [StarRing α]
    (fs : List (ModulatedFactor α × Matrix (Fin n) (Fin n) α)) (s : ℚ) :
    ((fs.map (fun p => (p.1.conj, p.2.conjTranspose))).map
        (fun p : ModulatedFactor α × Matrix (Fin n) (Fin n) α => p.1.call s • p.2)).sum
      = ((fs.map (fun p : ModulatedFactor α × Matrix (Fin n) (Fin n) α =>
          p.1.call s • p.2)).sum).conjTranspose := by
  induction fs with
  | nil => simp
  | cons q qs ih =>
    simp only [List.map_cons, List.sum_cons, Matrix.conjTranspose_add, ih,
      ModulatedFactor.conj_call_star_mod, Matrix.conjTranspose_smul]

theorem PWCTimeTensor.adjoint_call_pwc {n : ℕ} {α : Type} [CommRing α] [StarRing α]
    (A : PWCTimeTensor n α) (t : ℚ) :
    A.adjoint.call t = (A.call t).conjTranspose := by
  unfold PWCTimeTensor.call PWCTimeTensor.callIdx
  rw [PWCTimeTensor.adjoint_times]
  by_cases hg : (countLE A.times t : ℤ) - 1 < 0 ∨
      (A.times.length : ℤ) - 1 ≤ (countLE A.times t : ℤ) - 1
  · rw [if_pos hg, if_pos hg]
    rfl
  · rw [if_neg hg, if_neg hg]
    show ((A.factors.map (fun p => (p.1.conj, p.2.conjTranspose))).map
          (fun p : PWCFactor α × Matrix (Fin n) (Fin n) α =>
            p.1.call (A.times.getD ((countLE A.times t : ℤ) - 1).toNat 0) • p.2)).sum
        + A.static.conjTranspose
      = ((A.factors.map (fun p =>
            p.1.call (A.times.getD ((countLE A.times t : ℤ) - 1).toNat 0) • p.2)).sum
          + A.static).conjTranspose
    rw [sum_call_conj, Matrix.conjTranspose_add]

theorem ModulatedTimeTensor.adjoint_call_mod {n : ℕ} {α : Type} [CommRing α]
    [StarRing α] (A : ModulatedTimeTensor n α) (t : ℚ) :
    A.adjoint.call t = (A.call t).conjTranspose := by
  show ((A.factors.map (fun p => (p.1.conj, p.2.conjTranspose))).map
        (fun p : ModulatedFactor α × Matrix (Fin n) (Fin n) α => p.1.call t • p.2)).sum
      + A.static.conjTranspose
    = ((A.factors.map (fun p => p.1.call t • p.2)).sum + A.static).conjTranspose
  rw [sum_mcall_conj, Matrix.conjTranspose_add]

/-- **C3.** For every operator of each of the four variants — including any
operator produced by `scale`, `negate`, `add` or `view`, since those return
an operator of the same variant, over which the statement quantifies —
`adjoint()` evaluated at any `t` is the conjugate transpose of the original
evaluated at the same `t`. -/
theorem claim3_adjoint_eval {n : ℕ} {α : Type} [CommRing α] [StarRing α] :
    (∀ A : ConstantTimeTensor n α, ∀ t : ℚ,
        A.adjoint.call t = (A.call t).conjTranspose)
      ∧ (∀ A : CallableTimeTensor n α, ∀ t : ℚ,
          A.adjoint.call t = (A.call t).conjTranspose)
      ∧ (∀ A : PWCTimeTensor n α, ∀ t : ℚ,
          A.adjoint.call t = (A.call t).conjTranspose)
      ∧ (∀ A : ModulatedTimeTensor n α, ∀ t : ℚ,
          A.adjoint.call t = (A.call t).conjTranspose) :=
  ⟨fun _ _ => rfl, fun _ _ => rfl,
    fun A t => A.adjoint_call_pwc t, fun A t => A.adjoint_call_mod t⟩

/-- Torch dtypes relevant to the factories. -/
inductive DType where
  | c64
  | c128
  | f32
  | f64
deriving DecidableEq

/-- Compute devices. -/
inductive Device where
  | cpu
  | cuda (index : ℕ)
deriving DecidableEq

/-- `dtype_complex_to_real` (utils/tensor_types): the real dtype of matching
precision; identity on real dtypes. -/
def dtype_complex_to_real : DType → DType
  | .c64 => .f32
  | .c128 => .f64
  | d => d

/-- The fields of a torch tensor that the factory checks inspect. -/
structure TensorVal where
  dtype : DType
  device : Device
  shape : List ℕ
deriving DecidableEq

/-- The value returned by a user-supplied function at `t = 0`: either a
tensor or some other python object. -/
inductive PyValue where
  | tensor (v : TensorVal)
  | notTensor (typeName : String)
deriving DecidableEq

/-- The `TypeError`s raised by `_factory_callable` / `_factory_modulated`,
labelled by what the message reports. -/
inductive FactoryError where
  | notATensor (got : String)
  | wrongDtype (expected got : DType)
  | wrongDtypeModulated (cdtype rdtype got : DType)
  | wrongDevice (expected got : Device)
  | notSquare (shape : List ℕ)
deriving DecidableEq

/-- `_factory_callable` (src/dynamiqs/time_tensor.py:65-92): evaluate the
function once at `t = 0`, then check — in this order — that the result is a
tensor, has the declared dtype, and lives on the declared device; any failure
is a `TypeError` raised before the solver takes a single step. -/
def factory_callable (f0 : PyValue) (dtype : DType) (device : Device) :
    Except FactoryError TensorVal :=
  match f0 with
  | .notTensor s => .error (.notATensor s)
  | .tensor v =>
    if v.dtype ≠ dtype then .error (.wrongDtype dtype v.dtype)
    else if v.device ≠ device then .error (.wrongDevice device v.device)
    else .ok v

/-- The dtypes `_factory_modulated` accepts from the user function: the
declared dtype or, when the declared dtype is complex, its real counterpart
(`f0.dtype not in [dtype, rdtype]`, src/dynamiqs/time_tensor.py:167). -/
def modulated_rdtype (dtype : DType) : DType :=
  if dtype = .c64 ∨ dtype = .c128 then dtype_complex_to_real dtype else dtype

/-- `_factory_modulated` (src/dynamiqs/time_tensor.py:135-185): evaluate the
function once at `t = 0`; check that the result is a tensor, is on the
declared device, and has dtype in `[dtype, rdtype]`; then check that the base
matrix is square.  `baseShape` is the shape of the base tensor after
`to_tensor` conversion (conversion itself cannot fail on dtype/device). -/
def factory_modulated (f0 : PyValue) (baseShape : List ℕ) (dtype : DType)
    (device : Device) : Except FactoryError Unit :=
  match f0 with
  | .notTensor s => .error (.notATensor s)
  | .tensor v =>
    if v.device ≠ device then .error (.wrongDevice device v.device)
    else if v.dtype ≠ dtype ∧ v.dtype ≠ modulated_rdtype dtype then
      .error (.wrongDtypeModulated dtype (modulated_rdtype dtype) v.dtype)
    else if ¬ (baseShape.length = 2 ∧ baseShape.getD 0 0 = baseShape.getD 1 0) then
      .error (.notSquare baseShape)
    else .ok ()

/-- **C5, counterexample.** The claim says a modulated factory function whose
`t = 0` result has a dtype differing from the declared solve dtype fails with
a `TypeError`.  With declared dtype `complex64`, a function returning a
`float32` tensor on the right device has a differing dtype, yet construction
succeeds: the code accepts the real counterpart of a declared complex dtype. -/
theorem claim5_counterexample :
    DType.f32 ≠ DType.c64
      ∧ factory_modulated (.tensor ⟨.f32, .cpu, [1]⟩) [2, 2] .c64 .cpu = .ok () :=
  ⟨by decide, rfl⟩

/-- **C5, amended.** For the callable factory a non-tensor `t = 0` result, a
dtype differing from the declared dtype, or a device differing from the
declared device each fail with a `TypeError`, and a result matching both
succeeds.  For the modulated factory a non-tensor result or a differing
device fail, and a dtype fails only when it differs from both the declared
dtype and its real counterpart; with an accepted dtype, matching device and a
square base matrix, construction succeeds. -/
theorem claim5_factory_checks :
    (∀ (s : String) (d : DType) (dev : Device),
        factory_callable (.notTensor s) d dev = .error (.notATensor s))
      ∧ (∀ (v : TensorVal) (d : DType) (dev : Device), v.dtype ≠ d →
          factory_callable (.tensor v) d dev = .error (.wrongDtype d v.dtype))
      ∧ (∀ (v : TensorVal) (d : DType) (dev : Device), v.dtype = d →
          v.device ≠ dev →
          factory_callable (.tensor v) d dev = .error (.wrongDevice dev v.device))
      ∧ (∀ (v : TensorVal) (d : DType) (dev : Device), v.dtype = d →
          v.device = dev → factory_callable (.tensor v) d dev = .ok v)
      ∧ (∀ (s : String) (sh : List ℕ) (d : DType) (dev : Device),
          factory_modulated (.notTensor s) sh d dev = .error (.notATensor s))
      ∧ (∀ (v : TensorVal) (sh : List ℕ) (d : DType) (dev : Device),
          v.device ≠ dev →
          factory_modulated (.tensor v) sh d dev = .error (.wrongDevice dev v.device))
      ∧ (∀ (v : TensorVal) (sh : List ℕ) (d : DType) (dev : Device),
          v.device = dev → v.dtype ≠ d → v.dtype ≠ modulated_rdtype d →
          factory_modulated (.tensor v) sh d dev
            = .error (.wrongDtypeModulated d (modulated_rdtype d) v.dtype))
      ∧ (∀ (v : TensorVal) (sh : List ℕ) (d : DType) (dev : Device),
          v.device = dev → (v.dtype = d ∨ v.dtype = modulated_rdtype d) →
          sh.length = 2 → sh.getD 0 0 = sh.getD 1 0 →
          factory_modulated (.tensor v) sh d dev = .ok ()) := by
  refine ⟨fun s d dev => rfl, ?_, ?_, ?_, fun s sh d dev => rfl, ?_, ?_, ?_⟩
  · intro v d dev h
    simp [factory_callable, h]
  · intro v d dev h1 h2
    simp [factory_callable, h1, h2]
  · intro v d dev h1 h2
    simp [factory_callable, h1, h2]
  · intro v sh d dev h
    simp [factory_modulated, h]
  · intro v sh d dev h1 h2 h3
    simp [factory_modulated, h1, h2, h3]
  · intro v sh d dev h1 h2 h3 h4
    have hdt : ¬ (v.dtype ≠ d ∧ v.dtype ≠ modulated_rdtype d) := by
      rcases h2 with h2 | h2
      · exact fun hc => hc.1 h2
      · exact fun hc => hc.2 h2
    have hdev : ¬ v.device ≠ dev := fun hc => hc h1
    have hsq : ¬ ¬ (sh.length = 2 ∧ sh.getD 0 0 = sh.getD 1 0) :=
      not_not_intro ⟨h3, h4⟩
    simp only [factory_modulated]
    rw [if_neg hdev, if_neg hdt, if_neg hsq]

theorem claim5_factory_checks_witness :
    TensorVal.dtype ⟨.f32, .cpu, [1]⟩ ≠ DType.c64
      ∧ factory_callable (.tensor ⟨.f32, .cpu, [1]⟩) .c64 .cpu
          = .error (.wrongDtype .c64 .f32)
      ∧ TensorVal.dtype ⟨.c64, .cpu, [1]⟩ = DType.c64
      ∧ TensorVal.device ⟨.c64, .cpu, [1]⟩ = Device.cpu
      ∧ factory_callable (.tensor ⟨.c64, .cpu, [1]⟩) .c64 .cpu
          = .ok ⟨.c64, .cpu, [1]⟩
      ∧ factory_modulated (.tensor ⟨.c64, .cpu, [1]⟩) [2, 2] .c64 .cpu = .ok () := by
  refine ⟨by decide, ?_, by decide, by decide, ?_, ?_⟩
  · exact claim5_factory_checks.2.1 ⟨.f32, .cpu, [1]⟩ .c64 .cpu (by decide)
  · exact claim5_factory_checks.2.2.2.1 ⟨.c64, .cpu, [1]⟩ .c64 .cpu rfl rfl
  · exact claim5_factory_checks.2.2.2.2.2.2.2 ⟨.c64, .cpu, [1]⟩ [2, 2] .c64 .cpu rfl
      (Or.inl rfl) rfl rfl

/-- Modelled from the spec: `common_batch_size` (solvers/utils/utils.py is not
part of the excerpt).  "Zip policy: common size = the unique nontrivial size
among the inputs; any size that is 1 is broadcast up to common size; if two
distinct nontrivial sizes disagree, fail."  Returns `none` on disagreement. -/
def common_batch_size (sizes : List ℕ) : Option ℕ :=
  match sizes.filter (fun s => s ≠ 1) with
  | [] => some 1
  | b :: rest => if rest.all (fun s => s = b) then some b else none

/-- The `ValueError` raised by the zip-batching reconciliation, carrying the
batch size reported for each named argument (`H`, `jump_ops`, `rho0`). -/
inductive BatchError where
  | mismatch (bH bL brho : ℕ)
deriving DecidableEq

/-- `smesolve` zip-policy batching (src/dynamiqs/smesolve/smesolve.py:243-257):
compute the common batch size of `H`, `jump_ops`, `rho0`; on disagreement
raise a `ValueError` naming each argument and its size; otherwise broadcast
the state up to the common size (`y0.repeat`) and append the trajectory axis.
Returns the common size and the leading shape of the broadcast state. -/
def smesolveZipBatch (bH bL brho ntrajs : ℕ) : Except BatchError (ℕ × List ℕ) :=
  match common_batch_size [bH, bL, brho] with
  | none => .error (.mismatch bH bL brho)
  | some b => .ok (b, [if brho = 1 then b else brho, ntrajs])

theorem common_batch_size_eq_of_mem {l : List ℕ} {c : ℕ} (hc : c ≠ 1)
    (hall : ∀ s ∈ l, s = 1 ∨ s = c) (hex : c ∈ l) :
    common_batch_size l = some c := by
  have hfilter : ∀ s ∈ l.filter (fun s => s ≠ 1), s = c := by
    intro s hs
    rw [List.mem_filter] at hs
    rcases hall s hs.1 with h | h
    · exact absurd h (by simpa using hs.2)
    · exact h
  have hmem : c ∈ l.filter (fun s => s ≠ 1) := by
    rw [List.mem_filter]
    exact ⟨hex, by simpa using hc⟩
  cases hF : l.filter (fun s => s ≠ 1) with
  | nil =>
    rw [hF] at hmem
    simp at hmem
  | cons b rest =>
    rw [hF] at hfilter hmem
    have hb : b = c := hfilter b (List.mem_cons_self b rest)
    have hrest : (rest.all fun s => decide (s = b)) = true := by
      rw [List.all_eq_true]
      intro s hs
      have := hfilter s (List.mem_cons_of_mem b hs)
      simp [this, hb]
    simp only [common_batch_size, hF]
    rw [if_pos hrest, hb]

theorem common_batch_size_none_of_conflict {l : List ℕ} {s₁ s₂ : ℕ}
    (h₁ : s₁ ∈ l) (h₂ : s₂ ∈ l) (hn₁ : s₁ ≠ 1) (hn₂ : s₂ ≠ 1) (hne : s₁ ≠ s₂) :
    common_batch_size l = none := by
  have hm₁ : s₁ ∈ l.filter (fun s => s ≠ 1) := by
    rw [List.mem_filter]
    exact ⟨h₁, by simpa using hn₁⟩
  have hm₂ : s₂ ∈ l.filter (fun s => s ≠ 1) := by
    rw [List.mem_filter]
    exact ⟨h₂, by simpa using hn₂⟩
  cases hF : l.filter (fun s => s ≠ 1) with
  | nil =>
    rw [hF] at hm₁
    simp at hm₁
  | cons b rest =>
    rw [hF] at hm₁ hm₂
    simp only [common_batch_size, hF]
    rw [if_neg]
    intro hall
    rw [List.all_eq_true] at hall
    have e₁ : s₁ = b := by
      rcases List.mem_cons.mp hm₁ with h | h
      · exact h
      · simpa using hall s₁ h
    have e₂ : s₂ = b := by
      rcases List.mem_cons.mp hm₂ with h | h
      · exact h
      · simpa using hall s₂ h
    exact hne (e₁.trans e₂.symm)

/-- **C6.** Under the zip policy: whenever every batch size among
`{bH, bL, brho}` is `1` or the common nontrivial size `c` (with `c` attained),
the solve proceeds, the state axis is broadcast up to `c`, and the resulting
state batch is `c`; whenever two distinct nontrivial sizes appear, the call
fails before stepping with a validation error carrying each argument's batch
size. -/
theorem claim6_zip_batching :
    (∀ bH bL brho ntrajs c : ℕ, c ≠ 1 →
        (∀ s ∈ [bH, bL, brho], s = 1 ∨ s = c) → c ∈ [bH, bL, brho] →
        smesolveZipBatch bH bL brho ntrajs = .ok (c, [c, ntrajs]))
      ∧ (∀ bH bL brho ntrajs s₁ s₂ : ℕ, s₁ ∈ [bH, bL, brho] →
          s₂ ∈ [bH, bL, brho] → s₁ ≠ 1 → s₂ ≠ 1 → s₁ ≠ s₂ →
          smesolveZipBatch bH bL brho ntrajs = .error (.mismatch bH bL brho)) := by
  constructor
  · intro bH bL brho ntrajs c hc hall hex
    have hbrho : (if brho = 1 then c else brho) = c := by
      rcases hall brho (by simp) with h | h
      · rw [if_pos h]
      · rw [h]
        rw [if_neg hc]
    simp only [smesolveZipBatch, common_batch_size_eq_of_mem hc hall hex, hbrho]
  · intro bH bL brho ntrajs s₁ s₂ h₁ h₂ hn₁ hn₂ hne
    simp only [smesolveZipBatch, common_batch_size_none_of_conflict h₁ h₂ hn₁ hn₂ hne]

theorem claim6_zip_batching_witness :
    ((2 : ℕ) ≠ 1 ∧ (∀ s ∈ [2, 1, 2], s = 1 ∨ s = 2) ∧ 2 ∈ [2, 1, 2]
        ∧ smesolveZipBatch 2 1 2 5 = .ok (2, [2, 5]))
      ∧ ((2 : ℕ) ≠ 1 ∧ (3 : ℕ) ≠ 1 ∧ (2 : ℕ) ≠ 3
          ∧ smesolveZipBatch 2 3 1 5 = .error (.mismatch 2 3 1)) :=
  ⟨⟨by decide, by decide, by decide,
      claim6_zip_batching.1 2 1 2 5 2 (by decide) (by decide) (by decide)⟩,
    ⟨by decide, by decide, by decide,
      claim6_zip_batching.2 2 3 1 5 2 3 (by decide) (by decide) (by decide)
        (by decide) (by decide)⟩⟩

/-- `torch.Tensor.squeeze(*dims)`: remove each axis listed in `dims` whose
size is 1; listed axes of size ≠ 1 and unlisted axes are kept.  `i` is the
index of the first axis of `shape`. -/
def squeezeFrom : List ℕ → List ℕ → ℕ → List ℕ
  | [], _, _ => []
  | s :: rest, dims, i =>
    (if i ∈ dims ∧ s = 1 then [] else [s]) ++ squeezeFrom rest dims (i + 1)

/-- `shape.squeeze(*dims)` starting at axis 0. -/
def squeezeDims (shape dims : List ℕ) : List ℕ := squeezeFrom shape dims 0

/-- Modelled from the spec: under cartesian batching `sesolve` saves states of
shape `(bH, bpsi, len(tsave), n, 1)` (sesolve docstring, lines 97-98; the
solver base classes are not part of the excerpt); the returned result then
squeezes axes `(0, 1)` (src/dynamiqs/sesolve/sesolve.py:158-163 and
190-194). -/
def sesolveCartesianStatesShape (bH bpsi T n : ℕ) : List ℕ :=
  squeezeDims [bH, bpsi, T, n, 1] [0, 1]

/-- Modelled from the spec: under cartesian batching `smesolve` saves states
of shape `(bH, bL, brho, ntrajs, len(tsave), n, n)` (smesolve docstring,
lines 151-152); the returned result then squeezes axes `(0, 1, 2)`
(src/dynamiqs/smesolve/smesolve.py:236-242 and 310-314). -/
def smesolveCartesianStatesShape (bH bL brho ntrajs T n : ℕ) : List ℕ :=
  squeezeDims [bH, bL, brho, ntrajs, T, n, n] [0, 1, 2]

/-- **C7.** A cartesian solve with generator batch 2 and state batch 3 returns
states with leading shape `(2, 3, ...)`; and in general every leading axis
introduced by the cartesian product whose original caller size was 1 is
removed from the returned shape, while all other axes (including the
trajectory axis and trailing size-1 state axes) are kept, so an unbatched
call returns unbatched output. -/
theorem claim7_cartesian_shapes :
    (∀ T n : ℕ, sesolveCartesianStatesShape 2 3 T n = [2, 3, T, n, 1])
      ∧ (∀ bH bpsi T n : ℕ, sesolveCartesianStatesShape bH bpsi T n
          = (if bH = 1 then [] else [bH]) ++ (if bpsi = 1 then [] else [bpsi])
            ++ [T, n, 1])
      ∧ (∀ bH bL brho ntrajs T n : ℕ,
          smesolveCartesianStatesShape bH bL brho ntrajs T n
            = (if bH = 1 then [] else [bH]) ++ (if bL = 1 then [] else [bL])
              ++ (if brho = 1 then [] else [brho]) ++ [ntrajs, T, n, n]) := by
  refine ⟨?_, ?_, ?_⟩
  · intro T n
    simp [sesolveCartesianStatesShape, squeezeDims, squeezeFrom]
  · intro bH bpsi T n
    by_cases h1 : bH = 1 <;> by_cases h2 : bpsi = 1 <;>
      simp [sesolveCartesianStatesShape, squeezeDims, squeezeFrom, h1, h2]
  · intro bH bL brho ntrajs T n
    by_cases h1 : bH = 1 <;> by_cases h2 : bL = 1 <;> by_cases h3 : brho = 1 <;>
      simp [smesolveCartesianStatesShape, squeezeDims, squeezeFrom, h1, h2, h3]

/-- The errors the `smesolve` argument-validation stage can raise. -/
inductive SmesolveError where
  | emptyJumpOps
  | viewShapeError (numel target : ℕ)
  | etasLengthMismatch (nJump nEtas : ℕ)
  | etasAllZero
  | etasOutOfRange
deriving DecidableEq

/-- `smesolve` etas handling (src/dynamiqs/smesolve/smesolve.py:271-288), in
source order: first `etas.view(nL, 1, 1, 1, 1)` — a `RuntimeError` (shape
mismatch, naming neither argument nor contract) unless `etas` has exactly
`nL` elements; after the view `len(etas)` equals `nL`, so the dedicated
`ValueError` comparing `len(etas)` with `len(jump_ops)` compares `nL` with
itself; then the all-zero check; then the `[0, 1]` range check. -/
def smesolve_check_etas (nL : ℕ) (etas : List ℚ) : Except SmesolveError Unit :=
  if etas.length ≠ nL then .error (.viewShapeError etas.length nL)
  else if nL ≠ nL then .error (.etasLengthMismatch nL nL)
  else if etas.all (fun e => e = 0) then .error .etasAllZero
  else if etas.any (fun e => e < 0) ∨ etas.any (fun e => 1 < e) then
    .error .etasOutOfRange
  else .ok ()

/-- `smesolve` validation of `jump_ops` and `etas`
(src/dynamiqs/smesolve/smesolve.py:196-206 and 271-288): an empty jump
operator list fails first; the etas checks run later with `nL =
len(jump_ops)`. -/
def smesolve_validate (nJumpOps : ℕ) (etas : List ℚ) : Except SmesolveError Unit :=
  if nJumpOps = 0 then .error .emptyJumpOps
  else smesolve_check_etas nJumpOps etas

/-- **C8.** The empty-jump-list, all-zero-etas and out-of-range-etas failures
behave as claimed, but an `etas` whose length differs from the number of jump
operators dies in `etas.view(nL, 1, 1, 1, 1)` with a reshape `RuntimeError`
that names neither the argument nor the contract, and the dedicated
`ValueError` that would name them is unreachable on every input. -/
theorem claim8_smesolve_validation :
    smesolve_validate 2 [1 / 2, 1 / 2, 1 / 2] = .error (.viewShapeError 3 2)
      ∧ (∀ (nJ : ℕ) (etas : List ℚ) (a b : ℕ),
          smesolve_validate nJ etas ≠ .error (.etasLengthMismatch a b))
      ∧ smesolve_validate 0 [] = .error .emptyJumpOps
      ∧ smesolve_validate 2 [0, 0] = .error .etasAllZero
      ∧ smesolve_validate 2 [1 / 2, 3 / 2] = .error .etasOutOfRange := by
  refine ⟨rfl, ?_, rfl, ?_, ?_⟩
  · intro nJ etas a b
    unfold smesolve_validate smesolve_check_etas
    by_cases h0 : nJ = 0
    · simp [h0]
    · rw [if_neg h0]
      by_cases h1 : etas.length ≠ nJ
      · rw [if_pos h1]
        simp
      · rw [if_neg h1, if_neg (by omega)]
        by_cases h2 : etas.all (fun e => e = 0)
        · rw [if_pos h2]
          simp
        · rw [if_neg h2]
          by_cases h3 : etas.any (fun e => e < 0) ∨ etas.any (fun e => 1 < e)
          · rw [if_pos h3]
            simp
          · rw [if_neg h3]
            simp
  · show smesolve_validate 2 [0, 0] = .error .etasAllZero
    unfold smesolve_validate smesolve_check_etas
    norm_num
  · show smesolve_validate 2 [1 / 2, 3 / 2] = .error .etasOutOfRange
    unfold smesolve_validate smesolve_check_etas
    norm_num

/-- A python object as seen by `Options.__getattr__`: its `dir()` listing and
its attribute values (`getattr`).  `gradient` may be `None`; `dir(None)` is
then the listing of `None`'s own attributes, which this model also covers. -/
structure PyObj (V : Type) where
  dirList : List String
  attr : String → V

/-- The result of an attribute lookup: a value, or an `AttributeError`
carrying the attribute name it reports. -/
inductive AttrResult (V : Type) where
  | found (v : V)
  | attributeError (name : String)

/-- `Options.__getattr__` (src/dynamiqs/solvers/options.py:39-49): try the
solver object, then the gradient object, then the shared options, returning
the first object whose `dir()` contains the name; otherwise raise an
`AttributeError` naming the attribute.  (`__getattr__` is only invoked for
names not set directly on the `Options` instance itself.) -/
def optionsGetattr {V : Type} (solver gradient options : PyObj V)
    (name : String) : AttrResult V :=
  if name ∈ solver.dirList then .found (solver.attr name)
  else if name ∈ gradient.dirList then .found (gradient.attr name)
  else if name ∈ options.dirList then .found (options.attr name)
  else .attributeError name

/-- **C10.** Attribute lookup resolves in the fixed order solver → gradient →
shared options, returning the first match; a name found on none of the three
raises an `AttributeError` naming the attribute; in particular a name present
on both the solver and the shared options always resolves to the solver's
value. -/
theorem claim10_options_getattr {V : Type}
    (solver gradient options : PyObj V) (name : String) :
    (name ∈ solver.dirList →
        optionsGetattr solver gradient options name = .found (solver.attr name))
      ∧ (name ∉ solver.dirList → name ∈ gradient.dirList →
          optionsGetattr solver gradient options name = .found (gradient.attr name))
      ∧ (name ∉ solver.dirList → name ∉ gradient.dirList → name ∈ options.dirList →
          optionsGetattr solver gradient options name = .found (options.attr name))
      ∧ (name ∉ solver.dirList → name ∉ gradient.dirList → name ∉ options.dirList →
          optionsGetattr solver gradient options name = .attributeError name)
      ∧ (name ∈ solver.dirList → name ∈ options.dirList →
          optionsGetattr solver gradient options name = .found (solver.attr name)) := by
  refine ⟨?_, ?_, ?_, ?_, ?_⟩
  · intro h
    simp [optionsGetattr, h]
  · intro h1 h2
    simp [optionsGetattr, h1, h2]
  · intro h1 h2 h3
    simp [optionsGetattr, h1, h2, h3]
  · intro h1 h2 h3
    simp [optionsGetattr, h1, h2, h3]
  · intro h1 _
    simp [optionsGetattr, h1]

def egSolverObj : PyObj ℕ := ⟨["dt"], fun _ => 1⟩

def egGradientObj : PyObj ℕ := ⟨[], fun _ => 0⟩

def egSharedObj : PyObj ℕ := ⟨["dt", "verbose"], fun _ => 2⟩

theorem claim10_options_getattr_witness :
    "dt" ∈ egSolverObj.dirList ∧ "dt" ∈ egSharedObj.dirList
      ∧ optionsGetattr egSolverObj egGradientObj egSharedObj "dt"
          = .found (egSolverObj.attr "dt")
      ∧ ("x" ∉ egSolverObj.dirList ∧ "x" ∉ egGradientObj.dirList
          ∧ "x" ∉ egSharedObj.dirList)
      ∧ optionsGetattr egSolverObj egGradientObj egSharedObj "x"
          = .attributeError "x" := by
  have h1 : "dt" ∈ egSolverObj.dirList := by simp [egSolverObj]
  have h2 : "dt" ∈ egSharedObj.dirList := by simp [egSharedObj]
  have h3 : "x" ∉ egSolverObj.dirList := by simp [egSolverObj]
  have h4 : "x" ∉ egGradientObj.dirList := by simp [egGradientObj]
  have h5 : "x" ∉ egSharedObj.dirList := by simp [egSharedObj]
  exact ⟨h1, h2,
    (claim10_options_getattr egSolverObj egGradientObj egSharedObj "dt").2.2.2.2 h1 h2,
    ⟨h3, h4, h5⟩,
    (claim10_options_getattr egSolverObj egGradientObj egSharedObj "x").2.2.2.1 h3 h4 h5⟩

/-- Modelled from the spec: the `@cache` decorator on `propagator`
(`_utils.py` is not part of the excerpt) memoizes the propagator factor keyed
by the exact step-size value `Δt`.  The entry list and a counter of
matrix-exponential computations make reuse observable. -/
structure PropCache (M : Type) where
  entries : List (ℚ × M)
  computations : ℕ

/-- An empty cache whose computation counter reads `c`. -/
def PropCache.start (M : Type) (c : ℕ) : PropCache M := ⟨[], c⟩

def cacheLookup {M : Type} : List (ℚ × M) → ℚ → Option M
  | [], _ => none
  | (k, v) :: rest, q => if k = q then some v else cacheLookup rest q

/-- One call of the cached `propagator(delta_t)`
(src/dynamiqs/sesolve/propagator.py:9-12,
src/dynamiqs/mesolve/propagator.py:16-19): on a hit return the stored factor
with the cache unchanged; on a miss compute `f Δt` (the matrix exponential of
the generator scaled by `Δt`), store it under the exact key `Δt`, and count
the computation. -/
def propagatorCall {M : Type} (f : ℚ → M) (Δt : ℚ) (st : PropCache M) :
    M × PropCache M :=
  match cacheLookup st.entries Δt with
  | some P => (P, st)
  | none => (f Δt, ⟨(Δt, f Δt) :: st.entries, st.computations + 1⟩)

/-- Modelled from the spec: `operator_to_vector` (utils/vectorization.py, not
part of the excerpt) flattens an `(n, n)` operator into an `n²` column
vector. -/
def operator_to_vector {n : ℕ} {α : Type} (ρ : Matrix (Fin n) (Fin n) α) :
    Fin (n * n) → α :=
  fun k => ρ (finProdFinEquiv.symm k).1 (finProdFinEquiv.symm k).2

/-- Modelled from the spec: `vector_to_operator` reshapes an `n²` vector back
into the `(n, n)` operator it came from; inverse of `operator_to_vector`. -/
def vector_to_operator {n : ℕ} {α : Type} (v : Fin (n * n) → α) :
    Matrix (Fin n) (Fin n) α :=
  Matrix.of fun i j => v (finProdFinEquiv (i, j))

/-- `MEPropagator` (src/dynamiqs/mesolve/propagator.py:10-29).  `lind` is
`slindbladian(H, L)`, modelled from the spec as the vectorized Lindbladian —
an `n² × n²` matrix (utils/vectorization.py is not part of the excerpt);
`mexp` stands for `torch.matrix_exp`. -/
structure MEPropagatorModel (n : ℕ) (α : Type) where
  lind : Matrix (Fin (n * n)) (Fin (n * n)) α
  mexp : Matrix (Fin (n * n)) (Fin (n * n)) α → Matrix (Fin (n * n)) (Fin (n * n)) α

/-- `MEPropagator.propagator`: `torch.matrix_exp(self.lindbladian * delta_t)`. -/
def MEPropagatorModel.propagator {n : ℕ} {α : Type} [CommRing α] [SMul ℚ α]
    (S : MEPropagatorModel n α) (Δt : ℚ) :
    Matrix (Fin (n * n)) (Fin (n * n)) α :=
  S.mexp (Δt • S.lind)

/-- `MEPropagator.forward`: apply the cached propagator to the vectorized
density matrix (`self.propagator(delta_t) @ rho_vec`), threading the cache. -/
def MEPropagatorModel.forward {n : ℕ} {α : Type} [CommRing α] [SMul ℚ α]
    (S : MEPropagatorModel n α) (Δt : ℚ)
    (st : PropCache (Matrix (Fin (n * n)) (Fin (n * n)) α))
    (rhoVec : Fin (n * n) → α) :
    (Fin (n * n) → α) × PropCache (Matrix (Fin (n * n)) (Fin (n * n)) α) :=
  let r := propagatorCall S.propagator Δt st
  (r.1.mulVec rhoVec, r.2)

/-- `MEPropagator.save` (src/dynamiqs/mesolve/propagator.py:25-29): convert
the vectorized state back from vector to operator form before saving. -/
def me_save {n : ℕ} {α : Type} (y : Fin (n * n) → α) : Matrix (Fin n) (Fin n) α :=
  vector_to_operator y

/-- `SEPropagator` (src/dynamiqs/sesolve/propagator.py:8-16): the cached
factor is `torch.matrix_exp(-1j * H * delta_t)`; `im` stands for the
imaginary unit of the complex scalar type.  The generator acts on dimension
`n` (state vectors), in contrast to `n²` for the Lindblad family. -/
structure SEPropagatorModel (n : ℕ) (α : Type) where
  H : Matrix (Fin n) (Fin n) α
  im : α
  mexp : Matrix (Fin n) (Fin n) α → Matrix (Fin n) (Fin n) α

/-- `SEPropagator.propagator`. -/
def SEPropagatorModel.propagator {n : ℕ} {α : Type} [CommRing α] [SMul ℚ α]
    (S : SEPropagatorModel n α) (Δt : ℚ) : Matrix (Fin n) (Fin n) α :=
  S.mexp (Δt • (-S.im • S.H))

/-- `SEPropagator.forward`: `self.propagator(delta_t) @ psi`. -/
def SEPropagatorModel.forward {n : ℕ} {α : Type} [CommRing α] [SMul ℚ α]
    (S : SEPropagatorModel n α) (Δt : ℚ)
    (st : PropCache (Matrix (Fin n) (Fin n) α)) (psi : Fin n → α) :
    (Fin n → α) × PropCache (Matrix (Fin n) (Fin n) α) :=
  let r := propagatorCall S.propagator Δt st
  (r.1.mulVec psi, r.2)

/-- **C9.** The propagator scheme computes the matrix exponential of the
generator scaled by `Δt` and caches it keyed by the exact `Δt`: a second call
with the identical `Δt` returns the identical factor and leaves the cache —
including its computation counter — unchanged.  For the Lindblad family the
factor is the exponential of the vectorized Lindbladian (an `n² × n²`
matrix) applied to the vectorized density matrix, and `save` converts the
vector back to the operator it encodes; for the Schrödinger family the
factor is `exp(-i·H·Δt)` acting on dimension `n`. -/
theorem claim9_propagator_cache :
    (∀ (M : Type) (f : ℚ → M) (Δt : ℚ) (c : ℕ),
        (propagatorCall f Δt (PropCache.start M c)).1 = f Δt)
      ∧ (∀ (M : Type) (f : ℚ → M) (Δt : ℚ) (st : PropCache M),
          propagatorCall f Δt (propagatorCall f Δt st).2 = propagatorCall f Δt st)
      ∧ (∀ (n : ℕ) (α : Type) [CommRing α] [SMul ℚ α] (S : MEPropagatorModel n α)
          (Δt : ℚ) (c : ℕ) (v : Fin (n * n) → α),
          (S.forward Δt (PropCache.start _ c) v).1 = (S.mexp (Δt • S.lind)).mulVec v)
      ∧ (∀ (n : ℕ) (α : Type) [CommRing α] [SMul ℚ α] (S : SEPropagatorModel n α)
          (Δt : ℚ) (c : ℕ) (psi : Fin n → α),
          (S.forward Δt (PropCache.start _ c) psi).1
            = (S.mexp (Δt • (-S.im • S.H))).mulVec psi)
      ∧ (∀ (n : ℕ) (α : Type) (ρ : Matrix (Fin n) (Fin n) α),
          me_save (operator_to_vector ρ) = ρ) := by
  refine ⟨fun M f Δt c => rfl, ?_, fun n α _ _ S Δt c v => rfl,
    fun n α _ _ S Δt c psi => rfl, ?_⟩
  · intro M f Δt st
    cases h : cacheLookup st.entries Δt with
    | some P => simp [propagatorCall, h]
    | none => simp [propagatorCall, h, cacheLookup]
  · intro n α ρ
    ext i j
    simp [me_save, vector_to_operator, operator_to_vector]
